import Mathlib

/-!
Verification of the mind-map layout and viewport engine
(`frontend/src/components/MindMap/MindMapRenderer.tsx`).

The TypeScript source is embedded shallowly:

* `MindMapNode` is the input tree type (`id`, `label`, `children`).
* `PositionedNode` mirrors the `PositionedNode` interface; the `parent`
  back-reference of the source is omitted (it is used only for edge
  drawing and no property here mentions it); `angle` is optional exactly
  as in the source (`angle?: number`, set only by the radial layout).
* `calculateTreeLayout` / `treeChildren` embed the horizontal tree layout
  and its `forEach` loop over children (running `currentY`, `totalHeight`
  with the trailing-gap exclusion, the `find` / reversed-`find` for the
  first/last direct child, and JavaScript's falsy `|| startY` fallback,
  modelled by `jsOrQ`).
* `calculateRadialLayout` / `radialChildren` embed the radial layout.
  They are generic over the scalar field and take the cosine/sine
  functions as parameters so that the definitions stay executable; the
  theorems instantiate them at `ℝ`, `Real.cos`, `Real.sin` and the
  full-circle constant `2 * Real.pi`, matching `Math.cos` / `Math.sin` /
  `2 * Math.PI` in the source.
* `fitViewport` embeds the body of the fit-to-screen `useEffect` (also
  used verbatim by `resetView`); `treeBounds` embeds the bounds
  computation of the tree branch of the `useMemo`.
* `handleWheelZoom`, `zoomInButton`, `zoomOutButton`, `handleMouseDown`,
  `handleMouseMove` embed the interaction handlers over an explicit
  state record `RendererState`.
-/

inductive MindMapNode : Type where
  | mk (id : String) (label : String) (children : List MindMapNode)

def MindMapNode.children : MindMapNode → List MindMapNode
  | .mk _ _ cs => cs

structure PositionedNode (α : Type) where
  node : MindMapNode
  x : α
  y : α
  level : ℕ
  angle : Option α

/-- JavaScript's `a?.y || d`: `d` when the option is `none` (no match found)
or when the stored number is falsy (`0`). -/
def jsOrQ (o : Option ℚ) (d : ℚ) : ℚ :=
  match o with
  | none => d
  | some v => if v = 0 then d else v

structure TreeResult where
  positions : List (PositionedNode ℚ)
  height : ℚ

/-- Layout constants of `calculateTreeLayout` in the source:
`nodeWidth = 160`, `nodeHeight = 50`, `horizontalGap = 80`,
`verticalGap = 30`. -/
def nodeWidth : ℚ := 160

def nodeHeight : ℚ := 50

def horizontalGap : ℚ := 80

def verticalGap : ℚ := 30

mutual

/-- Embedding of `calculateTreeLayout` from `MindMapRenderer.tsx`. -/
def calculateTreeLayout (node : MindMapNode) (startX startY : ℚ)
    (level : ℕ) : TreeResult :=
  match node with
  | .mk nid nlabel children =>
    let x := startX + (level : ℚ) * (nodeWidth + horizontalGap)
    match children with
    | [] => ⟨[⟨.mk nid nlabel children, x, startY, level, none⟩], nodeHeight⟩
    | c :: cs =>
      let r := treeChildren (c :: cs) startX startY (level + 1)
      let childPositions := r.1
      let totalHeight := r.2
      let firstChildY :=
        jsOrQ ((childPositions.find? (fun p => p.level = level + 1)).map
          (fun p => p.y)) startY
      let lastChildY :=
        jsOrQ ((childPositions.reverse.find? (fun p => p.level = level + 1)).map
          (fun p => p.y)) startY
      let y := (firstChildY + lastChildY) / 2
      ⟨⟨.mk nid nlabel children, x, y, level, none⟩ :: childPositions, totalHeight⟩

/-- Embedding of the `forEach` child loop of `calculateTreeLayout`:
returns the concatenated child positions and the accumulated
`totalHeight` (the vertical gap is added after every child except the
last, as in the source). -/
def treeChildren (cs : List MindMapNode) (startX currentY : ℚ)
    (level : ℕ) : List (PositionedNode ℚ) × ℚ :=
  match cs with
  | [] => ([], 0)
  | c :: rest =>
    let result := calculateTreeLayout c startX currentY level
    let r := treeChildren rest startX (currentY + result.height + verticalGap) level
    (result.positions ++ r.1,
      result.height + (if rest.isEmpty then 0 else verticalGap) + r.2)

end

/-- The `currentY` value at which the `forEach` loop of
`calculateTreeLayout` lays out child number `j` (0-based), starting the
loop at `currentY`. -/
def childStartY (cs : List MindMapNode) (startX currentY : ℚ)
    (level : ℕ) (j : ℕ) : ℚ :=
  match cs, j with
  | _, 0 => currentY
  | [], _ + 1 => currentY
  | c :: rest, j + 1 =>
    childStartY rest startX
      (currentY + (calculateTreeLayout c startX currentY level).height + verticalGap)
      level j

/-- The concrete three-level tree `Root → [A, B]`, `A → [A1]` of the
spec's tree-layout scenario. -/
def nodeA1 : MindMapNode := .mk "a1" "A1" []

def nodeA : MindMapNode := .mk "a" "A" [nodeA1]

def nodeB : MindMapNode := .mk "b" "B" []

def rootAB : MindMapNode := .mk "root" "Root" [nodeA, nodeB]

/-- C5 counterexample: in the tree layout of `Root → [A, B]`, `A → [A1]`
from `(80, 50)`, the node A1 is positioned at x = 560, not at x = 640 as
claimed: the full positioned-node list is
`[Root@(80,90), A@(320,50), A1@(560,50), B@(320,130)]`. -/
theorem C5_tree_scenario_x640_false :
    (calculateTreeLayout rootAB 80 50 0).positions =
      [⟨rootAB, 80, 90, 0, none⟩, ⟨nodeA, 320, 50, 1, none⟩,
       ⟨nodeA1, 560, 50, 2, none⟩, ⟨nodeB, 320, 130, 1, none⟩]
      ∧ (560 : ℚ) ≠ 640 := by
  constructor
  · simp [calculateTreeLayout, treeChildren, rootAB, nodeA, nodeA1, nodeB,
      jsOrQ, nodeWidth, nodeHeight, horizontalGap, verticalGap, List.find?]
    norm_num
  · norm_num

/-- C5 (amended): Scenario `Root → [A, B]`, `A → [A1]`, tree layout from
`(80, 50)`: Root at x = 80, A and B at x = 320, A1 at x = 560 (namely
`80 + 2 * (160 + 80)`, per the layout's own x-formula; the claimed 640
is wrong); Root's y is the midpoint of A's and B's y; A's y equals
A1's y. -/
theorem C5_tree_scenario :
    ∃ pRoot pA pA1 pB : PositionedNode ℚ,
      (calculateTreeLayout rootAB 80 50 0).positions = [pRoot, pA, pA1, pB]
      ∧ pRoot.node = rootAB ∧ pA.node = nodeA ∧ pA1.node = nodeA1 ∧ pB.node = nodeB
      ∧ pRoot.x = 80 ∧ pA.x = 320 ∧ pB.x = 320
      ∧ pA1.x = 80 + 2 * (160 + 80)
      ∧ pRoot.y = (pA.y + pB.y) / 2
      ∧ pA.y = pA1.y := by
  refine ⟨⟨rootAB, 80, 90, 0, none⟩, ⟨nodeA, 320, 50, 1, none⟩,
    ⟨nodeA1, 560, 50, 2, none⟩, ⟨nodeB, 320, 130, 1, none⟩, ?_, ?_, ?_, ?_, ?_,
    ?_, ?_, ?_, ?_, ?_, ?_⟩ <;>
    simp [calculateTreeLayout, treeChildren, rootAB, nodeA, nodeA1, nodeB,
      jsOrQ, nodeWidth, nodeHeight, horizontalGap, verticalGap, List.find?] <;>
    norm_num

/-! ## Bounds and viewport -/

structure Bounds where
  minX : ℚ
  maxX : ℚ
  minY : ℚ
  maxY : ℚ
  width : ℚ
  height : ℚ

/-- Embeds `Math.min(...)` over a spread nonempty list (the source only applies
it to nonempty position lists; the `[]` branch is unreachable there). -/
def jsMinList (l : List ℚ) : ℚ :=
  match l with
  | [] => 0
  | x :: xs => xs.foldl min x

/-- Embeds `Math.max(...)` over a spread nonempty list. -/
def jsMaxList (l : List ℚ) : ℚ :=
  match l with
  | [] => 0
  | x :: xs => xs.foldl max x

/-- The bounds computed by the tree branch of the `useMemo` in
`MindMapRenderer`: layout from `(80, 50)`, x padded by `-20` / `+180`,
y padded by `-30` / `+60`. -/
def treeBounds (root : MindMapNode) : Bounds :=
  let pos := (calculateTreeLayout root 80 50 0).positions
  let minX := jsMinList (pos.map (fun p => p.x)) - 20
  let maxX := jsMaxList (pos.map (fun p => p.x)) + 180
  let minY := jsMinList (pos.map (fun p => p.y)) - 30
  let maxY := jsMaxList (pos.map (fun p => p.y)) + 60
  ⟨minX, maxX, minY, maxY, maxX - minX, maxY - minY⟩

structure ViewState where
  zoom : ℚ
  panX : ℚ
  panY : ℚ

/-- Embedding of the body of the fit-to-screen `useEffect` (identical in
`resetView`): `initialZoom = Math.min(cw/bw*0.9, ch/bh*0.9, 1)`, zoom set
to `Math.max(0.4, Math.min(initialZoom, 1))`, pan set using the
*unclamped* `initialZoom`.  The only guard in the source is the
`containerRef.current` null check; there is no check on the container's
size, so this runs for any `cw`, `ch`. -/
def fitViewport (cw ch : ℚ) (b : Bounds) : ViewState :=
  let initialZoom := min (min (cw / b.width * 0.9) (ch / b.height * 0.9)) 1
  ⟨max 0.4 (min initialZoom 1),
   (cw - b.width * initialZoom) / 2 - b.minX * initialZoom,
   (ch - b.height * initialZoom) / 2 - b.minY * initialZoom⟩

/-- The `useState` initial zoom of `MindMapRenderer` (`useState(0.8)`). -/
def initialZoomState : ℚ := 0.8

/-! ## Interaction handlers -/

structure RendererState where
  zoom : ℚ
  panX : ℚ
  panY : ℚ
  isDragging : Bool
  dragStartX : ℚ
  dragStartY : ℚ
  positions : List (PositionedNode ℚ)

/-- Embedding of `handleWheel`: multiply zoom by `0.9` (scroll down, `deltaY > 0`) or
`1.1` (scroll up), clamp to `[0.2, 2]`; nothing else is touched. -/
def handleWheel (deltaYPos : Bool) (s : RendererState) : RendererState :=
  let delta : ℚ := if deltaYPos then 0.9 else 1.1
  { s with zoom := min (max (s.zoom * delta) 0.2) 2 }

/-- Embedding of `handleMouseDown`: on the primary button (`button === 0`), start
dragging and record `dragStart = client - pan`. -/
def handleMouseDown (button : ℕ) (clientX clientY : ℚ)
    (s : RendererState) : RendererState :=
  if button = 0 then
    { s with isDragging := true,
             dragStartX := clientX - s.panX,
             dragStartY := clientY - s.panY }
  else s

/-- Embedding of `handleMouseMove`: while dragging, set `pan = client - dragStart`. -/
def handleMouseMove (clientX clientY : ℚ) (s : RendererState) : RendererState :=
  if s.isDragging then
    { s with panX := clientX - s.dragStartX, panY := clientY - s.dragStartY }
  else s

/-- The zoom-in toolbar button: `setZoom(z => Math.min(z * 1.2, 2))`. -/
def zoomInButton (s : RendererState) : RendererState :=
  { s with zoom := min (s.zoom * 1.2) 2 }

/-- The zoom-out toolbar button: `setZoom(z => Math.max(z * 0.8, 0.2))`. -/
def zoomOutButton (s : RendererState) : RendererState :=
  { s with zoom := max (s.zoom * 0.8) 0.2 }

/-- A zoom-changing input: one of the two toolbar buttons or a wheel
event. -/
inductive ZoomEvent : Type where
  | buttonIn : ZoomEvent
  | buttonOut : ZoomEvent
  | wheel (deltaYPos : Bool) : ZoomEvent

def applyZoomEvent (s : RendererState) (e : ZoomEvent) : RendererState :=
  match e with
  | .buttonIn => zoomInButton s
  | .buttonOut => zoomOutButton s
  | .wheel d => handleWheel d s

/-! ## Viewport and interaction claims -/

lemma handleWheel_zoom_bounds (d : Bool) (s : RendererState) :
    (0.2 : ℚ) ≤ (handleWheel d s).zoom ∧ (handleWheel d s).zoom ≤ 2 := by
  unfold handleWheel
  refine ⟨le_min (le_max_right _ _) (by norm_num), min_le_right _ _⟩

lemma wheel_foldl_bounds :
    ∀ (ds : List Bool) (s : RendererState),
      (0.2 : ℚ) ≤ s.zoom → s.zoom ≤ 2 →
      (0.2 : ℚ) ≤ (List.foldl (fun st e => handleWheel e st) s ds).zoom
        ∧ (List.foldl (fun st e => handleWheel e st) s ds).zoom ≤ 2 := by
  intro ds
  induction ds with
  | nil => intro s h1 h2; exact ⟨h1, h2⟩
  | cons d ds ih =>
    intro s _ _
    simpa using ih (handleWheel d s) (handleWheel_zoom_bounds d s).1
      (handleWheel_zoom_bounds d s).2

/-- C7: for every starting zoom and any nonempty sequence of wheel
events the resulting zoom is in `[0.2, 2]` (each event multiplies by
0.9 or 1.1 and clamps); if the starting zoom is already in `[0.2, 2]`
this holds for every (possibly empty) sequence; and a wheel event
changes neither the pan nor the positioned nodes. -/
theorem C7_wheel_zoom_clamp :
    (∀ (s : RendererState) (d : Bool) (ds : List Bool),
      (0.2 : ℚ) ≤ (List.foldl (fun st e => handleWheel e st) s (d :: ds)).zoom
      ∧ (List.foldl (fun st e => handleWheel e st) s (d :: ds)).zoom ≤ 2)
    ∧ (∀ s : RendererState, (0.2 : ℚ) ≤ s.zoom → s.zoom ≤ 2 →
        ∀ ds : List Bool,
          (0.2 : ℚ) ≤ (List.foldl (fun st e => handleWheel e st) s ds).zoom
          ∧ (List.foldl (fun st e => handleWheel e st) s ds).zoom ≤ 2)
    ∧ (∀ (s : RendererState) (d : Bool),
        (handleWheel d s).panX = s.panX ∧ (handleWheel d s).panY = s.panY
        ∧ (handleWheel d s).positions = s.positions) := by
  refine ⟨?_, ?_, ?_⟩
  · intro s d ds
    simpa using wheel_foldl_bounds ds (handleWheel d s)
      (handleWheel_zoom_bounds d s).1 (handleWheel_zoom_bounds d s).2
  · intro s h1 h2 ds
    exact wheel_foldl_bounds ds s h1 h2
  · intro s d
    exact ⟨rfl, rfl, rfl⟩

/-- The default renderer state of the component: `zoom = 0.8`,
`pan = (0,0)`, not dragging, no positions yet. -/
def initialRendererState : RendererState :=
  ⟨0.8, 0, 0, false, 0, 0, []⟩

theorem C7_wheel_zoom_clamp_witness :
    (0.2 : ℚ) ≤ initialRendererState.zoom ∧ initialRendererState.zoom ≤ 2
    ∧ ((0.2 : ℚ) ≤ (List.foldl (fun st e => handleWheel e st)
          initialRendererState [true, false]).zoom
      ∧ (List.foldl (fun st e => handleWheel e st)
          initialRendererState [true, false]).zoom ≤ 2) :=
  ⟨by norm_num [initialRendererState], by norm_num [initialRendererState],
    C7_wheel_zoom_clamp.2.1 initialRendererState
      (by norm_num [initialRendererState]) (by norm_num [initialRendererState])
      [true, false]⟩

lemma applyZoomEvent_bounds (e : ZoomEvent) (s : RendererState)
    (h1 : (0.2 : ℚ) ≤ s.zoom) (h2 : s.zoom ≤ 2) :
    (0.2 : ℚ) ≤ (applyZoomEvent s e).zoom ∧ (applyZoomEvent s e).zoom ≤ 2 := by
  cases e with
  | buttonIn =>
    unfold applyZoomEvent zoomInButton
    refine ⟨le_min (by nlinarith) (by norm_num), min_le_right _ _⟩
  | buttonOut =>
    unfold applyZoomEvent zoomOutButton
    refine ⟨le_max_right _ _, max_le (by nlinarith) (by norm_num)⟩
  | wheel d => exact handleWheel_zoom_bounds d s

/-- C10: the zoom-in button computes `min(zoom * 1.2, 2)` and the
zoom-out button `max(zoom * 0.8, 0.2)` (each clamps only one side);
still, starting from any zoom in `[0.2, 2]`, any finite sequence of
button presses and wheel events keeps the zoom in `[0.2, 2]`. -/
theorem C10_zoom_events_invariant :
    (∀ s : RendererState, (zoomInButton s).zoom = min (s.zoom * 1.2) 2)
    ∧ (∀ s : RendererState, (zoomOutButton s).zoom = max (s.zoom * 0.8) 0.2)
    ∧ (∀ s : RendererState, (0.2 : ℚ) ≤ s.zoom → s.zoom ≤ 2 →
        ∀ evs : List ZoomEvent,
          (0.2 : ℚ) ≤ (List.foldl applyZoomEvent s evs).zoom
          ∧ (List.foldl applyZoomEvent s evs).zoom ≤ 2) := by
  refine ⟨fun s => rfl, fun s => rfl, ?_⟩
  intro s h1 h2 evs
  induction evs generalizing s with
  | nil => exact ⟨h1, h2⟩
  | cons e evs ih =>
    have hb := applyZoomEvent_bounds e s h1 h2
    simpa using ih (applyZoomEvent s e) hb.1 hb.2

theorem C10_zoom_events_invariant_witness :
    (0.2 : ℚ) ≤ initialRendererState.zoom ∧ initialRendererState.zoom ≤ 2
    ∧ ((0.2 : ℚ) ≤ (List.foldl applyZoomEvent initialRendererState
          [.buttonIn, .wheel true, .buttonOut]).zoom
      ∧ (List.foldl applyZoomEvent initialRendererState
          [.buttonIn, .wheel true, .buttonOut]).zoom ≤ 2) :=
  ⟨by norm_num [initialRendererState], by norm_num [initialRendererState],
    C10_zoom_events_invariant.2.2 initialRendererState
      (by norm_num [initialRendererState]) (by norm_num [initialRendererState])
      [.buttonIn, .wheel true, .buttonOut]⟩

lemma handleMouseMove_of_dragging (mX mY : ℚ) (t : RendererState)
    (h : t.isDragging = true) :
    handleMouseMove mX mY t =
      { t with panX := mX - t.dragStartX, panY := mY - t.dragStartY } := by
  unfold handleMouseMove
  rw [h]
  simp

lemma drag_foldl_fields :
    ∀ (moves : List (ℚ × ℚ)) (s : RendererState), s.isDragging = true →
      (List.foldl (fun st m => handleMouseMove m.1 m.2 st) s moves).isDragging = true
      ∧ (List.foldl (fun st m => handleMouseMove m.1 m.2 st) s moves).dragStartX
          = s.dragStartX
      ∧ (List.foldl (fun st m => handleMouseMove m.1 m.2 st) s moves).dragStartY
          = s.dragStartY
      ∧ (List.foldl (fun st m => handleMouseMove m.1 m.2 st) s moves).zoom = s.zoom
      ∧ (List.foldl (fun st m => handleMouseMove m.1 m.2 st) s moves).positions
          = s.positions := by
  intro moves
  induction moves with
  | nil => intro s h; exact ⟨h, rfl, rfl, rfl, rfl⟩
  | cons m ms ih =>
    intro s h
    have hstep := handleMouseMove_of_dragging m.1 m.2 s h
    have := ih (handleMouseMove m.1 m.2 s) (by rw [hstep]; simpa using h)
    simpa [hstep, h] using this

/-- C9: a primary-button mouse-down records
`dragStart = pointerAtDragStart - panAtDragStart` and starts dragging;
after any further pointer-moves ending at `(mX, mY)` the pan equals
`pointer - dragStartOffset` (1:1 tracking), and neither mouse-down nor
the moves change the zoom or the positioned-node list. -/
theorem C9_drag_pan_tracking :
    ∀ (s : RendererState) (cX cY : ℚ) (moves : List (ℚ × ℚ)) (mX mY : ℚ),
      ((handleMouseDown 0 cX cY s).isDragging = true
        ∧ (handleMouseDown 0 cX cY s).dragStartX = cX - s.panX
        ∧ (handleMouseDown 0 cX cY s).dragStartY = cY - s.panY
        ∧ (handleMouseDown 0 cX cY s).zoom = s.zoom
        ∧ (handleMouseDown 0 cX cY s).positions = s.positions)
      ∧ ((List.foldl (fun st m => handleMouseMove m.1 m.2 st)
            (handleMouseDown 0 cX cY s) (moves ++ [(mX, mY)])).panX
          = mX - (cX - s.panX)
        ∧ (List.foldl (fun st m => handleMouseMove m.1 m.2 st)
            (handleMouseDown 0 cX cY s) (moves ++ [(mX, mY)])).panY
          = mY - (cY - s.panY)
        ∧ (List.foldl (fun st m => handleMouseMove m.1 m.2 st)
            (handleMouseDown 0 cX cY s) (moves ++ [(mX, mY)])).zoom = s.zoom
        ∧ (List.foldl (fun st m => handleMouseMove m.1 m.2 st)
            (handleMouseDown 0 cX cY s) (moves ++ [(mX, mY)])).positions
          = s.positions) := by
  intro s cX cY moves mX mY
  have hdown : handleMouseDown 0 cX cY s =
      { s with isDragging := true, dragStartX := cX - s.panX,
               dragStartY := cY - s.panY } := by
    unfold handleMouseDown
    simp
  have hmid := drag_foldl_fields moves (handleMouseDown 0 cX cY s)
    (by rw [hdown])
  refine ⟨⟨by rw [hdown], by rw [hdown], by rw [hdown], by rw [hdown],
    by rw [hdown]⟩, ?_⟩
  rw [List.foldl_append]
  simp only [List.foldl_cons, List.foldl_nil]
  rw [handleMouseMove_of_dragging _ _ _ hmid.1]
  refine ⟨?_, ?_, ?_, ?_⟩
  · simp only [hmid.2.1]
    rw [hdown]
  · simp only [hmid.2.2.1]
    rw [hdown]
  · simpa only [hmid.2.2.2.1] using by rw [hdown]
  · simpa only [hmid.2.2.2.2] using by rw [hdown]

/-- A single-node tree, used for the degenerate-container case. -/
def singleLeaf : MindMapNode := .mk "n" "N" []

lemma treeBounds_singleLeaf : treeBounds singleLeaf = ⟨60, 260, 20, 110, 200, 90⟩ := by
  simp [treeBounds, singleLeaf, calculateTreeLayout, jsMinList, jsMaxList,
    nodeWidth, nodeHeight, horizontalGap, verticalGap]
  norm_num

/-- C8: the fit computation is *not* skipped for a degenerate (0×0)
container: the source's only guard is the `containerRef.current` null
check, so the effect still recomputes the viewport, setting
`zoom = 0.4` (≠ the prior default `0.8`) and `pan = (0, 0)` — the claim
that zoom and pan are left unchanged fails.  (No NaN arises only because
the container size is the numerator of the divisions.) -/
theorem C8_degenerate_container_recomputes :
    fitViewport 0 0 (treeBounds singleLeaf) = ⟨0.4, 0, 0⟩
    ∧ (fitViewport 0 0 (treeBounds singleLeaf)).zoom ≠ initialZoomState := by
  rw [treeBounds_singleLeaf]
  constructor
  · simp [fitViewport]
    norm_num
  · simp [fitViewport, initialZoomState]
    norm_num

/-- A depth-8 chain tree (each node has one child); its tree-layout
bounds are wide enough that the fit zoom falls below the 0.4 clamp. -/
def chain8 : MindMapNode :=
  .mk "c" "C" [.mk "c" "C" [.mk "c" "C" [.mk "c" "C" [.mk "c" "C" [.mk "c" "C"
    [.mk "c" "C" [.mk "c" "C" [.mk "c" "C" []]]]]]]]]

set_option maxHeartbeats 1000000 in
lemma treeBounds_chain8 : treeBounds chain8 = ⟨60, 2180, 20, 110, 2120, 90⟩ := by
  simp [treeBounds, chain8, calculateTreeLayout, treeChildren, jsOrQ,
    jsMinList, jsMaxList, nodeWidth, nodeHeight, horizontalGap, verticalGap,
    List.find?]
  norm_num

/-- C1 counterexample: for the depth-8 chain tree in an 800×600
container, the unclamped fit zoom is 18/53 < 0.4, so the code clamps the
zoom to 0.4 = 2/5 but computes the pan with the *unclamped* 18/53: the
resulting `pan.x = 1040/53`, whereas centering at the clamped zoom would
give `(800 - width·zoom)/2 - minX·zoom = -48`. -/
theorem C1_pan_not_at_clamped_zoom :
    (fitViewport 800 600 (treeBounds chain8)).zoom = 2 / 5
    ∧ (fitViewport 800 600 (treeBounds chain8)).panX = 1040 / 53
    ∧ ((800 - (treeBounds chain8).width
          * (fitViewport 800 600 (treeBounds chain8)).zoom) / 2
        - (treeBounds chain8).minX
          * (fitViewport 800 600 (treeBounds chain8)).zoom) = -48
    ∧ (1040 / 53 : ℚ) ≠ -48 := by
  rw [treeBounds_chain8]
  refine ⟨?_, ?_, ?_, by norm_num⟩ <;>
    · simp [fitViewport]
      norm_num

/-- The content bounds of the spec's fit scenario: width 1000,
height 500 (minima taken as 0). -/
def scenarioBounds : Bounds := ⟨0, 1000, 0, 500, 1000, 500⟩

/-- C1 (amended): the fit zoom is `min(cw/bw·0.9, ch/bh·0.9, 1)` clamped
to `[0.4, 1]`, and the pan centers the content at the *unclamped* fit
zoom `z0`; whenever `z0 ≥ 0.4` (so the clamp is inactive) the pan is
thereby centered at the resulting (clamped) zoom, as claimed.  For the
800×600 container with bounds 1000×500 the fit zoom is 0.72. -/
theorem C1_fit_amended :
    (∀ (cw ch : ℚ) (b : Bounds),
      (fitViewport cw ch b).zoom
          = max 0.4 (min (min (cw / b.width * 0.9) (ch / b.height * 0.9)) 1)
      ∧ (fitViewport cw ch b).panX
          = (cw - b.width * min (min (cw / b.width * 0.9) (ch / b.height * 0.9)) 1) / 2
            - b.minX * min (min (cw / b.width * 0.9) (ch / b.height * 0.9)) 1
      ∧ (fitViewport cw ch b).panY
          = (ch - b.height * min (min (cw / b.width * 0.9) (ch / b.height * 0.9)) 1) / 2
            - b.minY * min (min (cw / b.width * 0.9) (ch / b.height * 0.9)) 1
      ∧ (0.4 ≤ min (min (cw / b.width * 0.9) (ch / b.height * 0.9)) 1 →
          (fitViewport cw ch b).panX
              = (cw - b.width * (fitViewport cw ch b).zoom) / 2
                - b.minX * (fitViewport cw ch b).zoom
            ∧ (fitViewport cw ch b).panY
              = (ch - b.height * (fitViewport cw ch b).zoom) / 2
                - b.minY * (fitViewport cw ch b).zoom))
    ∧ (fitViewport 800 600 scenarioBounds).zoom = 0.72 := by
  constructor
  · intro cw ch b
    refine ⟨?_, ?_, ?_, fun h04 => ?_⟩
    · simp only [fitViewport]
      rw [min_eq_left (min_le_right _ _)]
    · simp only [fitViewport]
    · simp only [fitViewport]
    · have hz : (fitViewport cw ch b).zoom
          = min (min (cw / b.width * 0.9) (ch / b.height * 0.9)) 1 := by
        simp only [fitViewport]
        rw [min_eq_left (min_le_right _ _), max_eq_right h04]
      rw [hz]
      exact ⟨by simp only [fitViewport], by simp only [fitViewport]⟩
  · simp [fitViewport, scenarioBounds]
    norm_num

theorem C1_fit_amended_witness :
    (0.4 : ℚ) ≤ min (min (800 / scenarioBounds.width * 0.9)
        (600 / scenarioBounds.height * 0.9)) 1
    ∧ ((fitViewport 800 600 scenarioBounds).panX
          = (800 - scenarioBounds.width * (fitViewport 800 600 scenarioBounds).zoom) / 2
            - scenarioBounds.minX * (fitViewport 800 600 scenarioBounds).zoom
      ∧ (fitViewport 800 600 scenarioBounds).panY
          = (600 - scenarioBounds.height * (fitViewport 800 600 scenarioBounds).zoom) / 2
            - scenarioBounds.minY * (fitViewport 800 600 scenarioBounds).zoom) :=
  ⟨by norm_num [scenarioBounds],
    (C1_fit_amended.1 800 600 scenarioBounds).2.2.2 (by norm_num [scenarioBounds])⟩

/-! ## Radial layout -/

/-- Embeds `radius = level === 0 ? 0 : baseRadius + (level - 1) * radiusIncrement`
with `baseRadius = 180`, `radiusIncrement = 160`. -/
def radiusOfLevel {α : Type} [LinearOrderedField α] (level : ℕ) : α :=
  if level = 0 then 0 else 180 + ((level - 1 : ℕ) : α) * 160

/-- Embeds `angle = level === 0 ? 0 : (startAngle + endAngle) / 2`. -/
def radialAngle {α : Type} [LinearOrderedField α] (level : ℕ)
    (startAngle endAngle : α) : α :=
  if level = 0 then 0 else (startAngle + endAngle) / 2

mutual

/-- Embedding of `calculateRadialLayout` from `MindMapRenderer.tsx`,
generic in the scalar field and in the cosine/sine functions `c`, `s`
(the theorems instantiate `α := ℝ`, `c := Real.cos`, `s := Real.sin`,
and the top-level call uses the default sector `[0, 2 * Real.pi)` of the
source). -/
def calculateRadialLayout {α : Type} [LinearOrderedField α] (c s : α → α)
    (node : MindMapNode) (centerX centerY : α) (level : ℕ)
    (startAngle endAngle : α) : List (PositionedNode α) :=
  match node with
  | .mk nid nlabel children =>
    let radius := radiusOfLevel level
    let angle := radialAngle level startAngle endAngle
    let x := centerX + radius * c angle
    let y := centerY + radius * s angle
    let childAngleStep := (endAngle - startAngle) / (children.length : α)
    ⟨.mk nid nlabel children, x, y, level, some angle⟩ ::
      radialChildren c s children centerX centerY (level + 1) startAngle
        childAngleStep 0

/-- Embedding of the `forEach` loop of `calculateRadialLayout`: child
number `index` receives the sector
`[startAngle + index*step, startAngle + index*step + step)`. -/
def radialChildren {α : Type} [LinearOrderedField α] (c s : α → α)
    (children : List MindMapNode) (centerX centerY : α) (level : ℕ)
    (startAngle step : α) (index : ℕ) : List (PositionedNode α) :=
  match children with
  | [] => []
  | child :: rest =>
    calculateRadialLayout c s child centerX centerY level
      (startAngle + (index : α) * step) (startAngle + (index : α) * step + step)
      ++ radialChildren c s rest centerX centerY level startAngle step (index + 1)

end

/-- The sector-subdivision rule exactly as worded in the spec, used for
the refinement statement of C2: a node with angular sector `[a, b)` and
`n` children assigns child `k` (0-based) the equal sub-sector
`[a + k*(b-a)/n, a + (k+1)*(b-a)/n)`; this follows a path of child
indices down from the root and returns the reached node with its
inherited sector. -/
def specSectorAlong {α : Type} [LinearOrderedField α] (node : MindMapNode)
    (a b : α) : List ℕ → Option (MindMapNode × α × α)
  | [] => some (node, a, b)
  | k :: rest =>
    match node.children[k]? with
    | none => none
    | some child =>
      specSectorAlong child
        (a + (k : α) * ((b - a) / (node.children.length : α)))
        (a + ((k : α) + 1) * ((b - a) / (node.children.length : α))) rest

lemma radialLayout_eq_cons {α : Type} [LinearOrderedField α] (c s : α → α)
    (node : MindMapNode) (cx cy : α) (level : ℕ) (a b : α) :
    calculateRadialLayout c s node cx cy level a b =
      ⟨node, cx + radiusOfLevel level * c (radialAngle level a b),
        cy + radiusOfLevel level * s (radialAngle level a b), level,
        some (radialAngle level a b)⟩ ::
      radialChildren c s node.children cx cy (level + 1) a
        ((b - a) / (node.children.length : α)) 0 := by
  cases node with
  | mk nid nlabel children => simp [calculateRadialLayout, MindMapNode.children]

lemma radiusOfLevel_nonneg (level : ℕ) : (0 : ℝ) ≤ radiusOfLevel level := by
  unfold radiusOfLevel
  split
  · exact le_refl 0
  · positivity

lemma sizeOf_child_lt (child : MindMapNode) (node : MindMapNode)
    (h : child ∈ node.children) : sizeOf child < sizeOf node := by
  cases node with
  | mk nid nlabel cs =>
    have h1 := List.sizeOf_lt_of_mem h
    simp [MindMapNode.children] at h1
    simp [MindMapNode.mk.sizeOf_spec]
    omega

lemma radialChildren_mem_intro {α : Type} [LinearOrderedField α] (c s : α → α) :
    ∀ (cs : List MindMapNode) (cx cy : α) (level : ℕ) (base step : α)
      (k0 j : ℕ) (child : MindMapNode) (p : PositionedNode α),
      cs[j]? = some child →
      p ∈ calculateRadialLayout c s child cx cy level
            (base + ((k0 + j : ℕ) : α) * step)
            (base + ((k0 + j : ℕ) : α) * step + step) →
      p ∈ radialChildren c s cs cx cy level base step k0 := by
  intro cs
  induction cs with
  | nil => intro cx cy level base step k0 j child p h; simp at h
  | cons c0 rest ih =>
    intro cx cy level base step k0 j child p h hp
    cases j with
    | zero =>
      simp at h
      subst h
      rw [radialChildren]
      refine List.mem_append_left _ ?_
      simpa using hp
    | succ j =>
      simp at h
      rw [radialChildren]
      refine List.mem_append_right _ ?_
      have hcast : k0 + (j + 1) = (k0 + 1) + j := by omega
      rw [hcast] at hp
      exact ih cx cy level base step (k0 + 1) j child p (by simpa using h) hp

lemma radialChildren_mem_elim {α : Type} [LinearOrderedField α] (c s : α → α) :
    ∀ (cs : List MindMapNode) (cx cy : α) (level : ℕ) (base step : α)
      (k0 : ℕ) (p : PositionedNode α),
      p ∈ radialChildren c s cs cx cy level base step k0 →
      ∃ (j : ℕ) (child : MindMapNode), cs[j]? = some child ∧
        p ∈ calculateRadialLayout c s child cx cy level
              (base + ((k0 + j : ℕ) : α) * step)
              (base + ((k0 + j : ℕ) : α) * step + step) := by
  intro cs
  induction cs with
  | nil => intro cx cy level base step k0 p h; rw [radialChildren] at h; simp at h
  | cons c0 rest ih =>
    intro cx cy level base step k0 p h
    rw [radialChildren] at h
    rcases List.mem_append.1 h with h1 | h2
    · exact ⟨0, c0, by simp, by simpa using h1⟩
    · obtain ⟨j, child, hj, hp⟩ := ih cx cy level base step (k0 + 1) p h2
      refine ⟨j + 1, child, by simpa using hj, ?_⟩
      have hcast : (k0 + 1) + j = k0 + (j + 1) := by omega
      rw [hcast] at hp
      exact hp

lemma radial_dist_sq :
    ∀ (n : ℕ) (node : MindMapNode), sizeOf node ≤ n →
      ∀ (cx cy : ℝ) (level : ℕ) (a b : ℝ) (p : PositionedNode ℝ),
        p ∈ calculateRadialLayout Real.cos Real.sin node cx cy level a b →
        (p.x - cx) ^ 2 + (p.y - cy) ^ 2 = (radiusOfLevel p.level : ℝ) ^ 2 := by
  intro n
  induction n with
  | zero =>
    intro node h
    exact absurd h (by cases node; simp [MindMapNode.mk.sizeOf_spec])
  | succ n ih =>
    intro node hsize cx cy level a b p hp
    rw [radialLayout_eq_cons] at hp
    rcases List.mem_cons.1 hp with h1 | h2
    · subst h1
      simp only
      have hpyth := Real.sin_sq_add_cos_sq (radialAngle level a b)
      linear_combination ((radiusOfLevel level : ℝ) ^ 2) * hpyth
    · obtain ⟨j, child, hj, hp2⟩ :=
        radialChildren_mem_elim Real.cos Real.sin node.children cx cy
          (level + 1) a ((b - a) / (node.children.length : ℝ)) 0 p h2
      have hchild : child ∈ node.children := List.getElem?_mem hj
      have hsz : sizeOf child ≤ n := by
        have := sizeOf_child_lt child node hchild
        omega
      exact ih child hsz cx cy (level + 1) _ _ p hp2

lemma radial_spec_path :
    ∀ (path : List ℕ) (node : MindMapNode) (cx cy : ℝ) (level : ℕ) (a b : ℝ)
      (m : MindMapNode) (a2 b2 : ℝ),
      specSectorAlong node a b path = some (m, a2, b2) → path ≠ [] →
      (⟨m, cx + radiusOfLevel (level + path.length) * Real.cos ((a2 + b2) / 2),
          cy + radiusOfLevel (level + path.length) * Real.sin ((a2 + b2) / 2),
          level + path.length, some ((a2 + b2) / 2)⟩ : PositionedNode ℝ)
        ∈ calculateRadialLayout Real.cos Real.sin node cx cy level a b := by
  intro path
  induction path with
  | nil => intro node cx cy level a b m a2 b2 h hne; exact absurd rfl hne
  | cons k rest ih =>
    intro node cx cy level a b m a2 b2 h hne
    cases hk : node.children[k]? with
    | none =>
      simp only [specSectorAlong, hk] at h
      exact absurd h (by simp)
    | some child =>
      simp only [specSectorAlong, hk] at h
      have hs : a + ((0 + k : ℕ) : ℝ) * ((b - a) / (node.children.length : ℝ))
          = a + (k : ℝ) * ((b - a) / (node.children.length : ℝ)) := by
        push_cast
        ring
      have he2 : a + (k : ℝ) * ((b - a) / (node.children.length : ℝ))
            + (b - a) / (node.children.length : ℝ)
          = a + ((k : ℝ) + 1) * ((b - a) / (node.children.length : ℝ)) := by
        ring
      cases rest with
      | nil =>
        obtain ⟨hm, ha2, hb2⟩ : child = m
            ∧ a + (k : ℝ) * ((b - a) / (node.children.length : ℝ)) = a2
            ∧ a + ((k : ℝ) + 1) * ((b - a) / (node.children.length : ℝ)) = b2 := by
          simp only [specSectorAlong] at h
          simpa using h
        subst hm
        subst ha2
        subst hb2
        simp only [List.length_cons, List.length_nil, Nat.zero_add]
        rw [radialLayout_eq_cons]
        refine List.mem_cons.2 (Or.inr ?_)
        refine radialChildren_mem_intro Real.cos Real.sin node.children cx cy
          (level + 1) a ((b - a) / (node.children.length : ℝ)) 0 k child _ hk ?_
        rw [hs, he2]
        have hra : radialAngle (level + 1)
            (a + (k : ℝ) * ((b - a) / (node.children.length : ℝ)))
            (a + ((k : ℝ) + 1) * ((b - a) / (node.children.length : ℝ)))
            = ((a + (k : ℝ) * ((b - a) / (node.children.length : ℝ)))
              + (a + ((k : ℝ) + 1) * ((b - a) / (node.children.length : ℝ)))) / 2 := by
          unfold radialAngle
          simp
        rw [radialLayout_eq_cons, hra]
        exact List.mem_cons_self _ _
      | cons k2 rest2 =>
        have hlen : level + (k :: (k2 :: rest2)).length
            = (level + 1) + (k2 :: rest2).length := by
          simp only [List.length_cons]
          omega
        rw [hlen]
        rw [radialLayout_eq_cons]
        refine List.mem_cons.2 (Or.inr ?_)
        refine radialChildren_mem_intro Real.cos Real.sin node.children cx cy
          (level + 1) a ((b - a) / (node.children.length : ℝ)) 0 k child _ hk ?_
        rw [hs, he2]
        exact ih child cx cy (level + 1) _ _ m a2 b2 h (by simp)

/-- C2: in the radial layout called with the source's top-level
arguments (level 0, sector `[0, 2π)`), (i) the first positioned node is
the root, placed exactly at the supplied center with level 0 and angle 0
(radius 0); (ii) every positioned node lies at distance
`radiusOfLevel level` from the center (0 for the root,
`180 + (L-1)*160` for level L > 0); (iii) for every node reached by a
path of child indices, whose inherited sector `[a, b)` is obtained by
the spec's equal-subdivision rule from the root sector `[0, 2π)`
(`specSectorAlong`), the layout contains that node at level
`path.length`, at angle `(a+b)/2` and at the corresponding radius. -/
theorem C2_radial_layout :
    ∀ (root : MindMapNode) (cx cy : ℝ),
      ((calculateRadialLayout Real.cos Real.sin root cx cy 0 0 (2 * Real.pi)).head?
          = some ⟨root, cx, cy, 0, some 0⟩)
      ∧ (∀ p ∈ calculateRadialLayout Real.cos Real.sin root cx cy 0 0 (2 * Real.pi),
          Real.sqrt ((p.x - cx) ^ 2 + (p.y - cy) ^ 2) = radiusOfLevel p.level)
      ∧ (∀ (path : List ℕ) (m : MindMapNode) (a b : ℝ),
          specSectorAlong root 0 (2 * Real.pi) path = some (m, a, b) → path ≠ [] →
          (⟨m, cx + radiusOfLevel path.length * Real.cos ((a + b) / 2),
              cy + radiusOfLevel path.length * Real.sin ((a + b) / 2),
              path.length, some ((a + b) / 2)⟩ : PositionedNode ℝ)
            ∈ calculateRadialLayout Real.cos Real.sin root cx cy 0 0 (2 * Real.pi)) := by
  intro root cx cy
  refine ⟨?_, ?_, ?_⟩
  · rw [radialLayout_eq_cons]
    simp [radiusOfLevel, radialAngle]
  · intro p hp
    have key := radial_dist_sq (sizeOf root) root le_rfl cx cy 0 0 (2 * Real.pi) p hp
    rw [key, Real.sqrt_sq (radiusOfLevel_nonneg p.level)]
  · intro path m a b h hne
    have hmem := radial_spec_path path root cx cy 0 0 (2 * Real.pi) m a b h hne
    simpa using hmem

/-- A two-node tree for the C2 witness. -/
def leafW : MindMapNode := .mk "aw" "AW" []

def rootW : MindMapNode := .mk "rw" "RW" [leafW]

theorem C2_radial_layout_witness :
    (specSectorAlong rootW (0 : ℝ) (2 * Real.pi) [0]
        = some (leafW, 0, 2 * Real.pi))
    ∧ ([0] : List ℕ) ≠ []
    ∧ (⟨leafW, (0 : ℝ) + radiusOfLevel (List.length ([0] : List ℕ))
          * Real.cos (((0 : ℝ) + 2 * Real.pi) / 2),
        (0 : ℝ) + radiusOfLevel (List.length ([0] : List ℕ))
          * Real.sin (((0 : ℝ) + 2 * Real.pi) / 2),
        List.length ([0] : List ℕ),
        some (((0 : ℝ) + 2 * Real.pi) / 2)⟩ : PositionedNode ℝ)
        ∈ calculateRadialLayout Real.cos Real.sin rootW 0 0 0 0 (2 * Real.pi) := by
  have h1 : specSectorAlong rootW (0 : ℝ) (2 * Real.pi) [0]
      = some (leafW, 0, 2 * Real.pi) := by
    simp only [specSectorAlong, rootW, MindMapNode.children]
    norm_num
  have h2 : ([0] : List ℕ) ≠ [] := by simp
  exact ⟨h1, h2, (C2_radial_layout rootW 0 0).2.2 [0] leafW 0 (2 * Real.pi) h1 h2⟩

/-- A root with exactly four leaf children. -/
def rootFour : MindMapNode :=
  .mk "r" "R" [.mk "c0" "C0" [], .mk "c1" "C1" [], .mk "c2" "C2" [],
    .mk "c3" "C3" []]

/-- C6 counterexample: for a root with exactly 4 leaf children the
radial layout places child k at the *midpoint* of its sector, i.e. at
angle `π/4 + k·(π/2)`, not at `k·(2π/4)`: the layout's
(node, level, angle) triples are listed in full, and child 0's angle
`π/4` differs from the claimed `0·(2π/4) = 0`. -/
theorem C6_four_children_angles_off_by_half_sector :
    (calculateRadialLayout Real.cos Real.sin rootFour 0 0 0 0
        (2 * Real.pi)).map (fun p => (p.node, p.level, p.angle))
      = [(rootFour, 0, some 0),
         (.mk "c0" "C0" [], 1, some (Real.pi / 4)),
         (.mk "c1" "C1" [], 1, some (3 * Real.pi / 4)),
         (.mk "c2" "C2" [], 1, some (5 * Real.pi / 4)),
         (.mk "c3" "C3" [], 1, some (7 * Real.pi / 4))]
    ∧ Real.pi / 4 ≠ (0 : ℝ) * (2 * Real.pi / 4) := by
  constructor
  · simp [calculateRadialLayout, radialChildren, rootFour, radialAngle,
      MindMapNode.children]
    refine ⟨?_, ?_, ?_, ?_⟩ <;> ring
  · simp only [zero_mul]
    exact ne_of_gt (by positivity)

/-- C6 (amended): for a radial layout of a root with exactly 4 children
and no grandchildren, each child k (k = 0..3) is placed at angle
`k·(2π/4) + π/4` — the midpoint of its sector
`[k·(2π/4), (k+1)·(2π/4))` — and all four children are at the same
radius `base_radius = 180` from the center. -/
theorem C6_radial_four_children :
    ∀ (rid rlabel i0 l0 i1 l1 i2 l2 i3 l3 : String) (cx cy : ℝ) (k : ℕ),
      k < 4 →
      ∃ (p : PositionedNode ℝ) (ck : MindMapNode),
        ([MindMapNode.mk i0 l0 [], .mk i1 l1 [], .mk i2 l2 [],
            .mk i3 l3 []] : List MindMapNode)[k]? = some ck
        ∧ p ∈ calculateRadialLayout Real.cos Real.sin
            (.mk rid rlabel [.mk i0 l0 [], .mk i1 l1 [], .mk i2 l2 [],
              .mk i3 l3 []]) cx cy 0 0 (2 * Real.pi)
        ∧ p.node = ck
        ∧ p.level = 1
        ∧ p.angle = some ((k : ℝ) * (2 * Real.pi / 4) + Real.pi / 4)
        ∧ Real.sqrt ((p.x - cx) ^ 2 + (p.y - cy) ^ 2) = 180 := by
  intro rid rlabel i0 l0 i1 l1 i2 l2 i3 l3 cx cy k hk
  set cs : List MindMapNode := [.mk i0 l0 [], .mk i1 l1 [], .mk i2 l2 [],
    .mk i3 l3 []] with hcs
  set root : MindMapNode := .mk rid rlabel cs with hroot
  have hlen : cs.length = 4 := by rw [hcs]; simp
  have hklen : k < cs.length := by rw [hlen]; exact hk
  obtain ⟨ck, hck⟩ : ∃ ck, cs[k]? = some ck :=
    ⟨cs.get ⟨k, hklen⟩, by simp [List.getElem?_eq_getElem hklen]⟩
  have hchildren : root.children = cs := by rw [hroot]; simp [MindMapNode.children]
  have hspec : specSectorAlong root (0 : ℝ) (2 * Real.pi) [k]
      = some (ck,
          0 + (k : ℝ) * ((2 * Real.pi - 0) / (cs.length : ℝ)),
          0 + ((k : ℝ) + 1) * ((2 * Real.pi - 0) / (cs.length : ℝ))) := by
    simp only [specSectorAlong, hchildren, hck]
  have hmem := radial_spec_path [k] root cx cy 0 0 (2 * Real.pi) ck _ _ hspec
    (by simp)
  refine ⟨_, ck, hck, hmem, rfl, by simp, ?_, ?_⟩
  · show some _ = some _
    rw [Option.some.injEq, hlen]
    push_cast
    ring
  · have hd := radial_dist_sq (sizeOf root) root le_rfl cx cy 0 0
      (2 * Real.pi) _ hmem
    rw [hd]
    have hr : (radiusOfLevel (0 + ([k] : List ℕ).length) : ℝ) = 180 := by
      norm_num [radiusOfLevel]
    rw [hr]
    exact Real.sqrt_sq (by norm_num)

theorem C6_radial_four_children_witness :
    2 < 4
    ∧ ∃ (p : PositionedNode ℝ) (ck : MindMapNode),
        ([MindMapNode.mk "c0" "C0" [], .mk "c1" "C1" [], .mk "c2" "C2" [],
            .mk "c3" "C3" []] : List MindMapNode)[2]? = some ck
        ∧ p ∈ calculateRadialLayout Real.cos Real.sin
            (.mk "r" "R" [.mk "c0" "C0" [], .mk "c1" "C1" [], .mk "c2" "C2" [],
              .mk "c3" "C3" []]) 0 0 0 0 (2 * Real.pi)
        ∧ p.node = ck
        ∧ p.level = 1
        ∧ p.angle = some ((2 : ℕ) * (2 * Real.pi / 4) + Real.pi / 4)
        ∧ Real.sqrt ((p.x - 0) ^ 2 + (p.y - 0) ^ 2) = 180 :=
  ⟨by norm_num,
    C6_radial_four_children "r" "R" "c0" "C0" "c1" "C1" "c2" "C2" "c3" "C3"
      0 0 2 (by norm_num)⟩

/-! ## Tree layout invariants -/

lemma treeLayout_leaf_eq (nid nlabel : String) (sx sy : ℚ) (level : ℕ) :
    calculateTreeLayout (.mk nid nlabel []) sx sy level =
      ⟨[⟨.mk nid nlabel [], sx + (level : ℚ) * (nodeWidth + horizontalGap), sy,
        level, none⟩], nodeHeight⟩ := by
  simp only [calculateTreeLayout]

lemma treeLayout_cons_eq (nid nlabel : String) (c : MindMapNode)
    (rest : List MindMapNode) (sx sy : ℚ) (level : ℕ) :
    calculateTreeLayout (.mk nid nlabel (c :: rest)) sx sy level =
      ⟨⟨.mk nid nlabel (c :: rest),
          sx + (level : ℚ) * (nodeWidth + horizontalGap),
          (jsOrQ (((treeChildren (c :: rest) sx sy (level + 1)).1.find?
              (fun p => p.level = level + 1)).map (fun p => p.y)) sy
            + jsOrQ (((treeChildren (c :: rest) sx sy (level + 1)).1.reverse.find?
              (fun p => p.level = level + 1)).map (fun p => p.y)) sy) / 2,
          level, none⟩ :: (treeChildren (c :: rest) sx sy (level + 1)).1,
        (treeChildren (c :: rest) sx sy (level + 1)).2⟩ := by
  simp only [calculateTreeLayout]

lemma treeChildren_nil_eq (sx sy : ℚ) (level : ℕ) :
    treeChildren [] sx sy level = ([], 0) := by
  simp only [treeChildren]

lemma treeChildren_cons_eq (c : MindMapNode) (rest : List MindMapNode)
    (sx sy : ℚ) (level : ℕ) :
    treeChildren (c :: rest) sx sy level =
      ((calculateTreeLayout c sx sy level).positions
          ++ (treeChildren rest sx
            (sy + (calculateTreeLayout c sx sy level).height + verticalGap) level).1,
        (calculateTreeLayout c sx sy level).height
          + (if rest.isEmpty then 0 else verticalGap)
          + (treeChildren rest sx
            (sy + (calculateTreeLayout c sx sy level).height + verticalGap) level).2) := by
  simp only [treeChildren]

lemma childStartY_zero (cs : List MindMapNode) (sx sy : ℚ) (level : ℕ) :
    childStartY cs sx sy level 0 = sy := by
  cases cs <;> rfl

lemma childStartY_cons_succ (c : MindMapNode) (rest : List MindMapNode)
    (sx sy : ℚ) (level j : ℕ) :
    childStartY (c :: rest) sx sy level (j + 1) =
      childStartY rest sx
        (sy + (calculateTreeLayout c sx sy level).height + verticalGap) level j := by
  rfl

lemma childStartY_nil (sx sy : ℚ) (level j : ℕ) :
    childStartY [] sx sy level j = sy := by
  cases j <;> rfl

/-- The bundle of structural invariants of `calculateTreeLayout` proved
below for every node: (i) the positions list starts with the node's own
positioned node (level `level`, the x-formula) and its tail only holds
deeper levels; (ii) every position obeys the x-formula
`x = startX + level * (nodeWidth + horizontalGap)`; (iii) every position
lies in the vertical span `[startY, startY + height - nodeHeight]`
allotted to the subtree; (iv) the returned height is at least
`nodeHeight`. -/
def TreeLayoutInv (node : MindMapNode) : Prop :=
  ∀ (sx sy : ℚ) (level : ℕ),
    (∃ y0 t, (calculateTreeLayout node sx sy level).positions
        = ⟨node, sx + (level : ℚ) * (nodeWidth + horizontalGap), y0, level,
            none⟩ :: t
      ∧ (∀ p ∈ t, level + 1 ≤ p.level))
    ∧ (∀ p ∈ (calculateTreeLayout node sx sy level).positions,
        p.x = sx + (p.level : ℚ) * (nodeWidth + horizontalGap))
    ∧ (∀ p ∈ (calculateTreeLayout node sx sy level).positions,
        sy ≤ p.y ∧ p.y + nodeHeight ≤ sy + (calculateTreeLayout node sx sy level).height)
    ∧ nodeHeight ≤ (calculateTreeLayout node sx sy level).height

lemma treeChildren_levels :
    ∀ (cs : List MindMapNode), (∀ c ∈ cs, TreeLayoutInv c) →
      ∀ (sx sy : ℚ) (level : ℕ) (p : PositionedNode ℚ),
        p ∈ (treeChildren cs sx sy level).1 →
        level ≤ p.level ∧ p.x = sx + (p.level : ℚ) * (nodeWidth + horizontalGap) := by
  intro cs
  induction cs with
  | nil =>
    intro _ sx sy level p hp
    rw [treeChildren_nil_eq] at hp
    simp at hp
  | cons c rest ih =>
    intro hcs sx sy level p hp
    rw [treeChildren_cons_eq] at hp
    rcases List.mem_append.1 hp with h1 | h2
    · obtain ⟨⟨y0, t, hpos, ht⟩, hx, _, _⟩ := hcs c (by simp) sx sy level
      refine ⟨?_, hx p h1⟩
      rw [hpos] at h1
      rcases List.mem_cons.1 h1 with h1h | h1t
      · rw [h1h]
      · exact le_trans (Nat.le_succ level) (ht p h1t)
    · exact ih (fun c2 hc2 => hcs c2 (by simp [hc2])) sx _ level p h2

lemma treeChildren_bounds :
    ∀ (cs : List MindMapNode), (∀ c ∈ cs, TreeLayoutInv c) →
      ∀ (sx sy : ℚ) (level : ℕ),
        0 ≤ (treeChildren cs sx sy level).2
        ∧ ∀ p ∈ (treeChildren cs sx sy level).1,
            sy ≤ p.y ∧ p.y + nodeHeight ≤ sy + (treeChildren cs sx sy level).2 := by
  intro cs
  induction cs with
  | nil =>
    intro _ sx sy level
    rw [treeChildren_nil_eq]
    exact ⟨le_refl 0, by simp⟩
  | cons c rest ih =>
    intro hcs sx sy level
    obtain ⟨_, _, hbnd, hh⟩ := hcs c (by simp) sx sy level
    have ihr := ih (fun c2 hc2 => hcs c2 (by simp [hc2])) sx
      (sy + (calculateTreeLayout c sx sy level).height + verticalGap) level
    have hgap : (0 : ℚ) ≤ (if rest.isEmpty then 0 else verticalGap) := by
      split
      · exact le_refl 0
      · norm_num [verticalGap]
    have hnh : (0 : ℚ) < nodeHeight := by norm_num [nodeHeight]
    have hvg : (0 : ℚ) < verticalGap := by norm_num [verticalGap]
    rw [treeChildren_cons_eq]
    constructor
    · simp only
      linarith [ihr.1]
    · intro p hp
      simp only at hp ⊢
      rcases List.mem_append.1 hp with h1 | h2
      · have := hbnd p h1
        constructor
        · exact this.1
        · linarith [ihr.1, this.2]
      · cases rest with
        | nil =>
          rw [treeChildren_nil_eq] at h2
          simp at h2
        | cons c2 rest2 =>
          have hb := ihr.2 p h2
          constructor
          · linarith [hb.1]
          · rw [show (if (c2 :: rest2).isEmpty = true then (0 : ℚ) else verticalGap)
                = verticalGap from by simp]
            linarith [hb.2]

lemma treeChildren_height_ge :
    ∀ (cs : List MindMapNode), (∀ c ∈ cs, TreeLayoutInv c) → cs ≠ [] →
      ∀ (sx sy : ℚ) (level : ℕ),
        nodeHeight ≤ (treeChildren cs sx sy level).2 := by
  intro cs
  cases cs with
  | nil => intro _ h; exact absurd rfl h
  | cons c rest =>
    intro hcs _ sx sy level
    obtain ⟨_, _, _, hh⟩ := hcs c (by simp) sx sy level
    have hrest := treeChildren_bounds rest (fun c2 hc2 => hcs c2 (by simp [hc2])) sx
      (sy + (calculateTreeLayout c sx sy level).height + verticalGap) level
    have hgap : (0 : ℚ) ≤ (if rest.isEmpty then 0 else verticalGap) := by
      split
      · exact le_refl 0
      · norm_num [verticalGap]
    rw [treeChildren_cons_eq]
    simp only
    linarith [hrest.1]

lemma treeChildren_first (c : MindMapNode) (rest : List MindMapNode)
    (hc : TreeLayoutInv c) (sx sy : ℚ) (level : ℕ) :
    ∃ pf t, (treeChildren (c :: rest) sx sy level).1 = pf :: t
      ∧ pf.level = level
      ∧ (calculateTreeLayout c sx sy level).positions.head? = some pf := by
  obtain ⟨⟨y0, t0, hpos, _⟩, _, _, _⟩ := hc sx sy level
  rw [treeChildren_cons_eq]
  simp only
  rw [hpos]
  refine ⟨_, _, rfl, rfl, ?_⟩
  rfl

lemma treeChildren_last :
    ∀ (cs : List MindMapNode), (∀ c ∈ cs, TreeLayoutInv c) →
      ∀ (sx sy : ℚ) (level : ℕ) (clast : MindMapNode),
        cs.getLast? = some clast →
        ∃ B pl t, (treeChildren cs sx sy level).1 = B ++ pl :: t
          ∧ pl.level = level
          ∧ (∀ p ∈ t, level + 1 ≤ p.level)
          ∧ (calculateTreeLayout clast sx
              (childStartY cs sx sy level (cs.length - 1)) level).positions.head?
            = some pl := by
  intro cs
  induction cs with
  | nil => intro _ sx sy level clast h; simp at h
  | cons c rest ih =>
    intro hcs sx sy level clast hlast
    cases rest with
    | nil =>
      have hc : c = clast := by simpa using hlast
      subst hc
      obtain ⟨⟨y0, t0, hpos, ht0⟩, _, _, _⟩ := hcs c (by simp) sx sy level
      rw [treeChildren_cons_eq]
      simp only
      rw [treeChildren_nil_eq]
      simp only
      refine ⟨[], ⟨c, sx + (level : ℚ) * (nodeWidth + horizontalGap), y0, level,
        none⟩, t0 ++ [], ?_, rfl, ?_, ?_⟩
      · rw [hpos]
        simp
      · intro p hp
        exact ht0 p (by simpa using hp)
      · rw [show ([c] : List MindMapNode).length - 1 = 0 from by simp,
          childStartY_zero, hpos]
        rfl
    | cons c2 rest2 =>
      have hlast2 : (c2 :: rest2).getLast? = some clast := by
        rw [List.getLast?_cons_cons] at hlast
        exact hlast
      obtain ⟨B, pl, t, hP, hlev, ht, hhead⟩ :=
        ih (fun x hx => hcs x (by simp [hx])) sx
          (sy + (calculateTreeLayout c sx sy level).height + verticalGap) level
          clast hlast2
      rw [treeChildren_cons_eq]
      simp only
      refine ⟨(calculateTreeLayout c sx sy level).positions ++ B, pl, t, ?_,
        hlev, ht, ?_⟩
      · rw [hP, List.append_assoc]
      · rw [show (c :: c2 :: rest2).length - 1 = ((c2 :: rest2).length - 1) + 1
            from by simp, childStartY_cons_succ]
        exact hhead

lemma treeChildren_mem_of_index :
    ∀ (cs : List MindMapNode) (sx sy : ℚ) (level j : ℕ) (c : MindMapNode),
      cs[j]? = some c →
      ∀ p ∈ (calculateTreeLayout c sx (childStartY cs sx sy level j) level).positions,
        p ∈ (treeChildren cs sx sy level).1 := by
  intro cs
  induction cs with
  | nil => intro sx sy level j c h; simp at h
  | cons c0 rest ih =>
    intro sx sy level j c h p hp
    rw [treeChildren_cons_eq]
    simp only
    cases j with
    | zero =>
      simp at h
      subst h
      rw [childStartY_zero] at hp
      exact List.mem_append_left _ hp
    | succ j =>
      simp at h
      rw [childStartY_cons_succ] at hp
      exact List.mem_append_right _ (ih sx _ level j c h p hp)

theorem treeLayoutInv_all : ∀ (node : MindMapNode), TreeLayoutInv node := by
  have key : ∀ (n : ℕ) (node : MindMapNode), sizeOf node ≤ n → TreeLayoutInv node := by
    intro n
    induction n with
    | zero =>
      intro node h
      exact absurd h (by cases node; simp [MindMapNode.mk.sizeOf_spec])
    | succ n ih =>
      intro node hsize
      cases node with
      | mk nid nlabel cs =>
        cases cs with
        | nil =>
          intro sx sy level
          rw [treeLayout_leaf_eq]
          refine ⟨⟨sy, [], rfl, by simp⟩, ?_, ?_, le_refl _⟩
          · intro p hp
            simp only [List.mem_singleton] at hp
            rw [hp]
          · intro p hp
            simp only [List.mem_singleton] at hp
            rw [hp]
            exact ⟨le_refl sy, le_refl _⟩
        | cons c rest =>
          have hcs : ∀ x ∈ c :: rest, TreeLayoutInv x := by
            intro x hx
            refine ih x ?_
            have h1 := sizeOf_child_lt x (.mk nid nlabel (c :: rest))
              (by simpa [MindMapNode.children] using hx)
            omega
          intro sx sy level
          obtain ⟨pf, tP, hPf, hpfl, _⟩ :=
            treeChildren_first c rest (hcs c (by simp)) sx sy (level + 1)
          obtain ⟨clast, hclast⟩ : ∃ x, (c :: rest).getLast? = some x :=
            ⟨(c :: rest).getLast (by simp), List.getLast?_eq_getLast _ (by simp)⟩
          obtain ⟨B, pl, tl, hPl, hpll, htl, _⟩ :=
            treeChildren_last (c :: rest) hcs sx sy (level + 1) clast hclast
          have hlv := treeChildren_levels (c :: rest) hcs sx sy (level + 1)
          have hbd := treeChildren_bounds (c :: rest) hcs sx sy (level + 1)
          have hHge := treeChildren_height_ge (c :: rest) hcs (by simp) sx sy
            (level + 1)
          have hfind1 : ((treeChildren (c :: rest) sx sy (level + 1)).1.find?
              (fun p => p.level = level + 1)) = some pf := by
            rw [hPf]
            exact List.find?_cons_of_pos _ (by simp [hpfl])
          have hfind2 : ((treeChildren (c :: rest) sx sy (level + 1)).1.reverse.find?
              (fun p => p.level = level + 1)) = some pl := by
            rw [hPl, List.reverse_append, List.reverse_cons, List.append_assoc]
            rw [List.find?_append]
            have hnone : tl.reverse.find? (fun p => p.level = level + 1) = none := by
              refine List.find?_eq_none.mpr ?_
              intro x hx
              have := htl x (List.mem_reverse.mp hx)
              simp only [decide_eq_true_eq]
              omega
            rw [hnone, Option.none_or]
            exact List.find?_cons_of_pos _ (by simp [hpll])
          have hpfP : pf ∈ (treeChildren (c :: rest) sx sy (level + 1)).1 := by
            rw [hPf]
            exact List.mem_cons_self _ _
          have hplP : pl ∈ (treeChildren (c :: rest) sx sy (level + 1)).1 := by
            rw [hPl]
            exact List.mem_append_right _ (List.mem_cons_self _ _)
          have hpfb := hbd.2 pf hpfP
          have hplb := hbd.2 pl hplP
          have hfb : sy ≤ jsOrQ (some pf.y) sy
              ∧ jsOrQ (some pf.y) sy + nodeHeight
                ≤ sy + (treeChildren (c :: rest) sx sy (level + 1)).2 := by
            by_cases h0 : pf.y = 0
            · rw [show jsOrQ (some pf.y) sy = sy from by simp [jsOrQ, h0]]
              exact ⟨le_refl sy, by linarith [hHge]⟩
            · rw [show jsOrQ (some pf.y) sy = pf.y from by simp [jsOrQ, h0]]
              exact hpfb
          have hlb : sy ≤ jsOrQ (some pl.y) sy
              ∧ jsOrQ (some pl.y) sy + nodeHeight
                ≤ sy + (treeChildren (c :: rest) sx sy (level + 1)).2 := by
            by_cases h0 : pl.y = 0
            · rw [show jsOrQ (some pl.y) sy = sy from by simp [jsOrQ, h0]]
              exact ⟨le_refl sy, by linarith [hHge]⟩
            · rw [show jsOrQ (some pl.y) sy = pl.y from by simp [jsOrQ, h0]]
              exact hplb
          have hpos_eq : (calculateTreeLayout (.mk nid nlabel (c :: rest))
                sx sy level).positions
              = ⟨.mk nid nlabel (c :: rest),
                  sx + (level : ℚ) * (nodeWidth + horizontalGap),
                  (jsOrQ (some pf.y) sy + jsOrQ (some pl.y) sy) / 2, level, none⟩
                :: (treeChildren (c :: rest) sx sy (level + 1)).1 := by
            rw [treeLayout_cons_eq]
            rw [hfind1, hfind2]
            rfl
          have hheight_eq : (calculateTreeLayout (.mk nid nlabel (c :: rest))
                sx sy level).height
              = (treeChildren (c :: rest) sx sy (level + 1)).2 := by
            rw [treeLayout_cons_eq]
          refine ⟨⟨(jsOrQ (some pf.y) sy + jsOrQ (some pl.y) sy) / 2,
              (treeChildren (c :: rest) sx sy (level + 1)).1, hpos_eq, ?_⟩,
            ?_, ?_, ?_⟩
          · intro p hp
            exact (hlv p hp).1
          · intro p hp
            rw [hpos_eq] at hp
            rcases List.mem_cons.1 hp with hph | hpt
            · rw [hph]
            · exact (hlv p hpt).2
          · intro p hp
            rw [hpos_eq] at hp
            rw [hheight_eq]
            rcases List.mem_cons.1 hp with hph | hpt
            · rw [hph]
              have h1 := hfb.1
              have h2 := hfb.2
              have h3 := hlb.1
              have h4 := hlb.2
              constructor
              · show sy ≤ (jsOrQ (some pf.y) sy + jsOrQ (some pl.y) sy) / 2
                linarith
              · show (jsOrQ (some pf.y) sy + jsOrQ (some pl.y) sy) / 2 + nodeHeight
                  ≤ sy + (treeChildren (c :: rest) sx sy (level + 1)).2
                linarith
            · exact hbd.2 p hpt
          · rw [hheight_eq]
            exact hHge
  intro node
  exact key (sizeOf node) node le_rfl

lemma tree_height_ge (node : MindMapNode) (sx sy : ℚ) (level : ℕ) :
    nodeHeight ≤ (calculateTreeLayout node sx sy level).height :=
  ((treeLayoutInv_all node) sx sy level).2.2.2

lemma childStartY_succ_rel :
    ∀ (cs : List MindMapNode) (sx sy : ℚ) (level j : ℕ) (c : MindMapNode),
      cs[j]? = some c →
      childStartY cs sx sy level (j + 1)
        = childStartY cs sx sy level j
          + (calculateTreeLayout c sx (childStartY cs sx sy level j) level).height
          + verticalGap := by
  intro cs
  induction cs with
  | nil => intro sx sy level j c h; simp at h
  | cons c0 rest ih =>
    intro sx sy level j c h
    cases j with
    | zero =>
      simp at h
      subst h
      rw [childStartY_cons_succ, childStartY_zero, childStartY_zero]
    | succ j =>
      simp at h
      rw [childStartY_cons_succ, childStartY_cons_succ]
      exact ih sx _ level j c h

lemma childStartY_le_succ :
    ∀ (cs : List MindMapNode) (sx sy : ℚ) (level j : ℕ),
      childStartY cs sx sy level j ≤ childStartY cs sx sy level (j + 1) := by
  intro cs
  induction cs with
  | nil =>
    intro sx sy level j
    rw [childStartY_nil, childStartY_nil]
  | cons c0 rest ih =>
    intro sx sy level j
    cases j with
    | zero =>
      rw [childStartY_zero, childStartY_cons_succ, childStartY_zero]
      have h1 := tree_height_ge c0 sx sy level
      have h2 : (0 : ℚ) < nodeHeight := by norm_num [nodeHeight]
      have h3 : (0 : ℚ) < verticalGap := by norm_num [verticalGap]
      linarith
    | succ j =>
      rw [childStartY_cons_succ, childStartY_cons_succ]
      exact ih sx _ level j

lemma childStartY_mono (cs : List MindMapNode) (sx sy : ℚ) (level : ℕ)
    (i j : ℕ) (hij : i ≤ j) :
    childStartY cs sx sy level i ≤ childStartY cs sx sy level j := by
  induction j, hij using Nat.le_induction with
  | base => exact le_refl _
  | succ j hij ihm => exact le_trans ihm (childStartY_le_succ cs sx sy level j)

/-- C3: in the horizontal tree layout, every positioned node's x equals
`startX + level * (nodeWidth + horizontalGap)` (with `nodeWidth = 160`,
`horizontalGap = 80`); and for a nonnegative start y (the source always
starts at y = 50), every internal node's y is the midpoint
`(firstChildY + lastChildY)/2` of its *first* and *last* direct
children's y — not the mean of all children. -/
theorem C3_tree_layout :
    ∀ (node : MindMapNode) (sx sy : ℚ) (level : ℕ),
      (∀ p ∈ (calculateTreeLayout node sx sy level).positions,
        p.x = sx + (p.level : ℚ) * (nodeWidth + horizontalGap))
      ∧ (0 ≤ sy →
          ∀ (nid nlabel : String) (cs : List MindMapNode),
            node = .mk nid nlabel cs →
            ∀ (c0 clast : MindMapNode),
              cs.head? = some c0 → cs.getLast? = some clast →
              ∃ yp yf yl,
                ((calculateTreeLayout node sx sy level).positions.head?.map
                    (fun p => p.y)) = some yp
                ∧ ((calculateTreeLayout c0 sx sy (level + 1)).positions.head?.map
                    (fun p => p.y)) = some yf
                ∧ ((calculateTreeLayout clast sx
                      (childStartY cs sx sy (level + 1) (cs.length - 1))
                      (level + 1)).positions.head?.map (fun p => p.y)) = some yl
                ∧ yp = (yf + yl) / 2) := by
  intro node sx sy level
  constructor
  · exact ((treeLayoutInv_all node) sx sy level).2.1
  · intro hsy nid nlabel cs hnode c0 clast hc0 hcl
    subst hnode
    cases cs with
    | nil => simp at hc0
    | cons c rest =>
      have hc0c : c0 = c := by simpa using hc0.symm
      have hcs : ∀ x ∈ c :: rest, TreeLayoutInv x := fun x _ => treeLayoutInv_all x
      obtain ⟨pf, tP, hPf, hpfl, hpfhead⟩ :=
        treeChildren_first c rest (treeLayoutInv_all c) sx sy (level + 1)
      obtain ⟨B, pl, tl, hPl, hpll, htl, hplhead⟩ :=
        treeChildren_last (c :: rest) hcs sx sy (level + 1) clast hcl
      have hbd := treeChildren_bounds (c :: rest) hcs sx sy (level + 1)
      have hfind1 : ((treeChildren (c :: rest) sx sy (level + 1)).1.find?
          (fun p => p.level = level + 1)) = some pf := by
        rw [hPf]
        exact List.find?_cons_of_pos _ (by simp [hpfl])
      have hfind2 : ((treeChildren (c :: rest) sx sy (level + 1)).1.reverse.find?
          (fun p => p.level = level + 1)) = some pl := by
        rw [hPl, List.reverse_append, List.reverse_cons, List.append_assoc]
        rw [List.find?_append]
        have hnone : tl.reverse.find? (fun p => p.level = level + 1) = none := by
          refine List.find?_eq_none.mpr ?_
          intro x hx
          have := htl x (List.mem_reverse.mp hx)
          simp only [decide_eq_true_eq]
          omega
        rw [hnone, Option.none_or]
        exact List.find?_cons_of_pos _ (by simp [hpll])
      have hpfP : pf ∈ (treeChildren (c :: rest) sx sy (level + 1)).1 := by
        rw [hPf]
        exact List.mem_cons_self _ _
      have hplP : pl ∈ (treeChildren (c :: rest) sx sy (level + 1)).1 := by
        rw [hPl]
        exact List.mem_append_right _ (List.mem_cons_self _ _)
      have hf : jsOrQ (some pf.y) sy = pf.y := by
        by_cases h0 : pf.y = 0
        · have h1 := (hbd.2 pf hpfP).1
          rw [h0] at h1 ⊢
          simp [jsOrQ]
          linarith
        · simp [jsOrQ, h0]
      have hl : jsOrQ (some pl.y) sy = pl.y := by
        by_cases h0 : pl.y = 0
        · have h1 := (hbd.2 pl hplP).1
          rw [h0] at h1 ⊢
          simp [jsOrQ]
          linarith
        · simp [jsOrQ, h0]
      have hpos_eq : (calculateTreeLayout (.mk nid nlabel (c :: rest))
            sx sy level).positions
          = ⟨.mk nid nlabel (c :: rest),
              sx + (level : ℚ) * (nodeWidth + horizontalGap),
              (pf.y + pl.y) / 2, level, none⟩
            :: (treeChildren (c :: rest) sx sy (level + 1)).1 := by
        rw [treeLayout_cons_eq, hfind1, hfind2]
        simp only [Option.map_some']
        rw [hf, hl]
      refine ⟨(pf.y + pl.y) / 2, pf.y, pl.y, ?_, ?_, ?_, rfl⟩
      · rw [hpos_eq]
        rfl
      · rw [hc0c, hpfhead]
        rfl
      · rw [hplhead]
        rfl

theorem C3_tree_layout_witness :
    (0 : ℚ) ≤ 50
    ∧ rootAB = .mk "root" "Root" [nodeA, nodeB]
    ∧ ([nodeA, nodeB] : List MindMapNode).head? = some nodeA
    ∧ ([nodeA, nodeB] : List MindMapNode).getLast? = some nodeB
    ∧ (∃ yp yf yl,
        ((calculateTreeLayout rootAB 80 50 0).positions.head?.map
            (fun p => p.y)) = some yp
        ∧ ((calculateTreeLayout nodeA 80 50 (0 + 1)).positions.head?.map
            (fun p => p.y)) = some yf
        ∧ ((calculateTreeLayout nodeB 80
              (childStartY [nodeA, nodeB] 80 50 (0 + 1)
                (([nodeA, nodeB] : List MindMapNode).length - 1))
              (0 + 1)).positions.head?.map (fun p => p.y)) = some yl
        ∧ yp = (yf + yl) / 2) :=
  ⟨by norm_num, rfl, rfl, by simp,
    (C3_tree_layout rootAB 80 50 0).2 (by norm_num) "root" "Root"
      [nodeA, nodeB] rfl nodeA nodeB rfl (by simp)⟩

/-- C4: for any node and any two of its children with indices i < j, the
vertical spans allocated to the two sibling subtrees do not overlap:
every positioned node of sibling i's subtree (laid out at its
`childStartY` offset, as the `forEach` loop does) lies at least
`nodeHeight + verticalGap` above every positioned node of sibling j's
subtree — and both subtrees' positioned nodes are indeed part of the
parent's positions list; moreover the height returned for any subtree
covers the y-extent of all its nodes
(`startY ≤ p.y` and `p.y + nodeHeight ≤ startY + height`). -/
theorem C4_sibling_no_overlap :
    (∀ (nid nlabel : String) (cs : List MindMapNode) (sx sy : ℚ) (level : ℕ)
      (i j : ℕ) (ci cj : MindMapNode),
      i < j → cs[i]? = some ci → cs[j]? = some cj →
      (∀ p ∈ (calculateTreeLayout ci sx (childStartY cs sx sy (level + 1) i)
          (level + 1)).positions,
        p ∈ (calculateTreeLayout (.mk nid nlabel cs) sx sy level).positions)
      ∧ (∀ q ∈ (calculateTreeLayout cj sx (childStartY cs sx sy (level + 1) j)
          (level + 1)).positions,
        q ∈ (calculateTreeLayout (.mk nid nlabel cs) sx sy level).positions)
      ∧ (∀ p ∈ (calculateTreeLayout ci sx (childStartY cs sx sy (level + 1) i)
          (level + 1)).positions,
         ∀ q ∈ (calculateTreeLayout cj sx (childStartY cs sx sy (level + 1) j)
            (level + 1)).positions,
          p.y + nodeHeight + verticalGap ≤ q.y))
    ∧ (∀ (node : MindMapNode) (sx sy : ℚ) (level : ℕ),
        ∀ p ∈ (calculateTreeLayout node sx sy level).positions,
          sy ≤ p.y
          ∧ p.y + nodeHeight ≤ sy + (calculateTreeLayout node sx sy level).height) := by
  constructor
  · intro nid nlabel cs sx sy level i j ci cj hij hci hcj
    cases cs with
    | nil => simp at hci
    | cons c rest =>
      refine ⟨?_, ?_, ?_⟩
      · intro p hp
        rw [treeLayout_cons_eq]
        exact List.mem_cons_of_mem _
          (treeChildren_mem_of_index (c :: rest) sx sy (level + 1) i ci hci p hp)
      · intro q hq
        rw [treeLayout_cons_eq]
        exact List.mem_cons_of_mem _
          (treeChildren_mem_of_index (c :: rest) sx sy (level + 1) j cj hcj q hq)
      · intro p hp q hq
        have hbi := ((treeLayoutInv_all ci) sx
          (childStartY (c :: rest) sx sy (level + 1) i) (level + 1)).2.2.1 p hp
        have hbj := ((treeLayoutInv_all cj) sx
          (childStartY (c :: rest) sx sy (level + 1) j) (level + 1)).2.2.1 q hq
        have hrel := childStartY_succ_rel (c :: rest) sx sy (level + 1) i ci hci
        have hmono := childStartY_mono (c :: rest) sx sy (level + 1) (i + 1) j hij
        linarith [hbi.2, hbj.1]
  · intro node sx sy level p hp
    exact ((treeLayoutInv_all node) sx sy level).2.2.1 p hp

theorem C4_sibling_no_overlap_witness :
    (0 < 1)
    ∧ (([nodeA, nodeB] : List MindMapNode)[0]? = some nodeA)
    ∧ (([nodeA, nodeB] : List MindMapNode)[1]? = some nodeB)
    ∧ ((⟨nodeA, 320, 50, 1, none⟩ : PositionedNode ℚ)
        ∈ (calculateTreeLayout nodeA 80
            (childStartY [nodeA, nodeB] 80 50 (0 + 1) 0) (0 + 1)).positions)
    ∧ ((⟨nodeB, 320, 130, 1, none⟩ : PositionedNode ℚ)
        ∈ (calculateTreeLayout nodeB 80
            (childStartY [nodeA, nodeB] 80 50 (0 + 1) 1) (0 + 1)).positions)
    ∧ (⟨nodeA, 320, 50, 1, none⟩ : PositionedNode ℚ).y + nodeHeight + verticalGap
        ≤ (⟨nodeB, 320, 130, 1, none⟩ : PositionedNode ℚ).y := by
  have h01 : 0 < 1 := by norm_num
  have hA : ([nodeA, nodeB] : List MindMapNode)[0]? = some nodeA := rfl
  have hB : ([nodeA, nodeB] : List MindMapNode)[1]? = some nodeB := rfl
  have hY0 : childStartY [nodeA, nodeB] 80 50 (0 + 1) 0 = 50 :=
    childStartY_zero _ _ _ _
  have hY1 : childStartY [nodeA, nodeB] 80 50 (0 + 1) 1 = 130 := by
    rw [childStartY_cons_succ, childStartY_zero]
    have : (calculateTreeLayout nodeA 80 50 (0 + 1)).height = 50 := by
      simp [calculateTreeLayout, treeChildren, nodeA, nodeA1, nodeHeight,
        nodeWidth, horizontalGap, verticalGap]
    rw [this]
    norm_num [verticalGap]
  have hpmem : (⟨nodeA, 320, 50, 1, none⟩ : PositionedNode ℚ)
      ∈ (calculateTreeLayout nodeA 80
          (childStartY [nodeA, nodeB] 80 50 (0 + 1) 0) (0 + 1)).positions := by
    rw [hY0]
    simp [calculateTreeLayout, treeChildren, nodeA, nodeA1, jsOrQ, nodeWidth,
      nodeHeight, horizontalGap, verticalGap, List.find?]
    norm_num
  have hqmem : (⟨nodeB, 320, 130, 1, none⟩ : PositionedNode ℚ)
      ∈ (calculateTreeLayout nodeB 80
          (childStartY [nodeA, nodeB] 80 50 (0 + 1) 1) (0 + 1)).positions := by
    rw [hY1]
    simp [calculateTreeLayout, nodeB, nodeWidth, horizontalGap]
    norm_num
  exact ⟨h01, hA, hB, hpmem, hqmem,
    (C4_sibling_no_overlap.1 "root" "Root" [nodeA, nodeB] 80 50 0 0 1
      nodeA nodeB h01 hA hB).2.2 _ hpmem _ hqmem⟩
